import Mathlib

/-!
# Verification of `pcset.py` (pitch-class sets)

A shallow embedding of the `PCSet` class from `src/pcset.py`.

The Python object stores its elements in a `set`; we model that set as the
duplicate-free list `pcs : List ℤ` holding the elements in the (otherwise
irrelevant) iteration order of the Python set.  Python integers are `ℤ`, and
Python's `%` on a positive modulus agrees with `Int.emod` (`%` on `ℤ`), which
is always non-negative for a positive modulus.  Methods that can raise are
embedded as functions into `Except String`, the error carrying the exception
message; Python's `min` of an empty sequence raises `ValueError`, which we
keep as an `Except.error`.
-/

/-- `PCSet._check_n`: validates an integer as a pitch class, interval, or
index number, returning it unchanged when `0 ≤ n ≤ 11` and raising
`ValueError` otherwise. -/
def check_n (n : ℤ) : Except String ℤ :=
  if 0 ≤ n ∧ n ≤ 11 then .ok n
  else .error "pitch class, interval, or index number must be 0-11"

/-- The `PCSet` class.  `pcs` is the contents of the Python set `self._pcs`,
as a duplicate-free list in iteration order. -/
structure PCSet where
  pcs : List ℤ
deriving DecidableEq

instance {ε α : Type} [DecidableEq ε] [DecidableEq α] : DecidableEq (Except ε α)
  | .ok a, .ok b => by
    cases (inferInstance : Decidable (a = b)) with
    | isTrue h => exact isTrue (by rw [h])
    | isFalse h => exact isFalse (by intro hc; cases hc; exact h rfl)
  | .ok _, .error _ => isFalse (by intro hc; cases hc)
  | .error _, .ok _ => isFalse (by intro hc; cases hc)
  | .error e, .error f => by
    cases (inferInstance : Decidable (e = f)) with
    | isTrue h => exact isTrue (by rw [h])
    | isFalse h => exact isFalse (by intro hc; cases hc; exact h rfl)

/-- The set comprehension `{PCSet._check_n(pc) for pc in pcs}` of the
constructor: each element is validated in order, the first failure
propagating; the results are collected into a set. -/
def check_all : List ℤ → Except String (List ℤ)
  | [] => .ok []
  | pc :: rest =>
    match check_n pc with
    | .error e => .error e
    | .ok v =>
      match check_all rest with
      | .error e => .error e
      | .ok vs => .ok (v :: vs)

/-- `PCSet.__init__`: constructs a PCSet from the given integers, validating
each one. -/
def PCSet.ofList (pcs : List ℤ) : Except String PCSet :=
  match check_all pcs with
  | .ok checked => .ok ⟨checked.dedup⟩
  | .error e => .error e

/-- Python's `min` on a list of naturals: raises `ValueError` on the empty
list, otherwise folds the binary minimum over the elements. -/
def pymin : List ℕ → Except String ℕ
  | [] => .error "min() arg is an empty sequence"
  | x :: xs => .ok (xs.foldl min x)

/-- `PCSet._rotate_list`: `input_list[front_index:] + input_list[:front_index]`. -/
def rotate_list (input_list : List ℤ) (front_index : ℕ) : List ℤ :=
  input_list.drop front_index ++ input_list.take front_index

/-- The compactness score of `normal_order`:
`sum(1 << ((pc_b - pc_a) % 12) for pc_b in sorted_pcs)`. -/
def pc_score (sorted_pcs : List ℤ) (pc_a : ℤ) : ℕ :=
  (sorted_pcs.map (fun pc_b => 2 ^ ((pc_b - pc_a) % 12).toNat)).sum

/-- `PCSet.normal_order`: the sorted pitch classes rotated to start at the
first index of minimal compactness score. -/
def PCSet.normal_order (s : PCSet) : Except String (List ℤ) :=
  let sorted_pcs := List.insertionSort (· ≤ ·) s.pcs
  let scores := sorted_pcs.map (pc_score sorted_pcs)
  match pymin scores with
  | .ok m => .ok (rotate_list sorted_pcs (scores.indexOf m))
  | .error e => .error e

/-- One candidate sequence of `prime_form`:
`sorted((pc_b - pc_a) % 12 for pc_b in collection)`. -/
def pf_candidate (collection : List ℤ) (pc_a : ℤ) : List ℤ :=
  List.insertionSort (· ≤ ·) (collection.map (fun pc_b => (pc_b - pc_a) % 12))

/-- The bit-weight score of a `prime_form` candidate:
`sum(1 << pc for pc in lst)`. -/
def pf_score (lst : List ℤ) : ℕ :=
  (lst.map (fun pc => 2 ^ pc.toNat)).sum

/-- `PCSet.prime_form`: candidate sequences for every starting element of the
set and of its pitch inversion, scored by bit weight; the transposition-side
minimum is returned when it is `≤` the inversion-side minimum, otherwise the
inversion-side minimum. -/
def PCSet.prime_form (s : PCSet) : Except String (List ℤ) :=
  let transpositions := s.pcs.map (pf_candidate s.pcs)
  let inverted_pcs := (s.pcs.map (fun pc => (-pc) % 12)).dedup
  let inversions := inverted_pcs.map (pf_candidate inverted_pcs)
  let t_scores := transpositions.map pf_score
  let i_scores := inversions.map pf_score
  match pymin t_scores, pymin i_scores with
  | .ok min_t, .ok min_i =>
    if min_t ≤ min_i then
      .ok (transpositions.getD (t_scores.indexOf min_t) [])
    else
      .ok (inversions.getD (i_scores.indexOf min_i) [])
  | .error e, _ => .error e
  | .ok _, .error e => .error e

/-- `result[i] += 1` on a list of counters. -/
def incr_at (result : List ℕ) (i : ℕ) : List ℕ :=
  result.set i (result.getD i 0 + 1)

/-- `itertools.combinations(xs, 2)`: every pair of elements in order of
appearance. -/
def combinations2 {α : Type} : List α → List (α × α)
  | [] => []
  | x :: xs => xs.map (fun y => (x, y)) ++ combinations2 xs

/-- The bucket update of one loop iteration of `interval_class_vector`. -/
def icv_step (result : List ℕ) (p : ℤ × ℤ) : List ℕ :=
  let pc_ivl := (p.2 - p.1) % 12
  let pc_ivl := if pc_ivl > 6 then (-pc_ivl) % 12 else pc_ivl
  incr_at result (pc_ivl - 1).toNat

/-- `PCSet.interval_class_vector`: six counters, incremented once for each
pair of distinct elements at the index of its interval class. -/
def PCSet.interval_class_vector (s : PCSet) : List ℕ :=
  (combinations2 s.pcs).foldl icv_step (List.replicate 6 0)

/-- `PCSet.add_pc`: validates the integer and adds it to the set. -/
def PCSet.add_pc (s : PCSet) (pc : ℤ) : Except String PCSet :=
  match check_n pc with
  | .ok v => .ok ⟨s.pcs.insert v⟩
  | .error e => .error e

/-- `PCSet.remove_pc`: removes the integer from the set if present; the
`KeyError` of a missing element is caught and discarded. -/
def PCSet.remove_pc (s : PCSet) (pc : ℤ) : PCSet :=
  ⟨s.pcs.erase pc⟩

/-- `PCSet.t_n`: validates the interval and replaces the set with
`{(pc + n) % 12 for pc in self._pcs}`. -/
def PCSet.t_n (s : PCSet) (n : ℤ) : Except String PCSet :=
  match check_n n with
  | .ok _ => .ok ⟨(s.pcs.map (fun pc => (pc + n) % 12)).dedup⟩
  | .error e => .error e

/-- `PCSet.i_n`: validates the index and replaces the set with
`{(n - pc) % 12 for pc in self._pcs}`. -/
def PCSet.i_n (s : PCSet) (n : ℤ) : Except String PCSet :=
  match check_n n with
  | .ok _ => .ok ⟨(s.pcs.map (fun pc => (n - pc) % 12)).dedup⟩
  | .error e => .error e

/-- `PCSet.issubset`. -/
def PCSet.issubset (s other : PCSet) : Bool :=
  s.pcs.all (fun x => decide (x ∈ other.pcs))

/-- `PCSet.issuperset`. -/
def PCSet.issuperset (s other : PCSet) : Bool :=
  other.pcs.all (fun x => decide (x ∈ s.pcs))

/-- `PCSet.difference`: a new instance holding the set difference. -/
def PCSet.difference (s other : PCSet) : PCSet :=
  ⟨s.pcs.filter (fun x => decide (x ∉ other.pcs))⟩

/-- `PCSet.intersection`: a new instance holding the set intersection. -/
def PCSet.intersection (s other : PCSet) : PCSet :=
  ⟨s.pcs.filter (fun x => decide (x ∈ other.pcs))⟩

/-- `PCSet.union`: a new instance holding the set union. -/
def PCSet.union (s other : PCSet) : PCSet :=
  ⟨(s.pcs ++ other.pcs).dedup⟩

/-! ## Specification-side notions -/

/-- The representation invariant of a Python `set` of pitch classes: the
backing list has no duplicates, and every stored element is in `[0, 11]`. -/
def PCSet.valid (s : PCSet) : Prop :=
  s.pcs.Nodup ∧ ∀ pc ∈ s.pcs, 0 ≤ pc ∧ pc ≤ 11

instance (s : PCSet) : Decidable s.valid := by
  unfold PCSet.valid; infer_instance

/-- The mathematical set of elements of a `PCSet`. -/
def PCSet.elems (s : PCSet) : Finset ℤ :=
  s.pcs.toFinset

/-- The elements of a `PCSet` in ascending order. -/
def PCSet.sortedElems (s : PCSet) : List ℤ :=
  Finset.sort (· ≤ ·) s.elems

/-- The compactness score from the spec of normal order: for a starting
element `a`, the sum over all `b` in the set of `2 ^ ((b - a) mod 12)`. -/
def no_score (S : Finset ℤ) (a : ℤ) : ℕ :=
  S.sum (fun b => 2 ^ ((b - a) % 12).toNat)

/-- The pitch inversion of a set: `{-pc mod 12 : pc in set}`. -/
def pcInv (S : Finset ℤ) : Finset ℤ :=
  S.image (fun pc => (-pc) % 12)

/-- The set of normalized intervals from a starting element `a`:
`{(b - a) mod 12 : b in S}`. -/
def candSet (S : Finset ℤ) (a : ℤ) : Finset ℤ :=
  S.image (fun b => (b - a) % 12)

/-- The candidate sequence of prime form for starting element `a`: the sorted
list of `(b - a) mod 12` over all `b` in the collection. -/
def cand (S : Finset ℤ) (a : ℤ) : List ℤ :=
  Finset.sort (· ≤ ·) (candSet S a)

/-- All transposition-side candidate sequences of prime form. -/
def candsT (S : Finset ℤ) : Finset (List ℤ) :=
  S.image (cand S)

/-- All inversion-side candidate sequences of prime form. -/
def candsI (S : Finset ℤ) : Finset (List ℤ) :=
  candsT (pcInv S)

/-- What the spec says `prime_form` returns for a set with elements `S`:
a transposition-side candidate of globally minimal bit-weight score whenever
the transposition-side minimum is `≤` the inversion-side minimum, and
otherwise an inversion-side candidate beating every transposition-side
candidate strictly. -/
def PFSpec (S : Finset ℤ) (c : List ℤ) : Prop :=
  (c ∈ candsT S ∧ ∀ d ∈ candsT S ∪ candsI S, pf_score c ≤ pf_score d) ∨
  (c ∈ candsI S ∧ (∀ d ∈ candsI S, pf_score c ≤ pf_score d) ∧
    ∀ d ∈ candsT S, pf_score c < pf_score d)

/-- The interval class of two pitch classes: `min(ivl, 12 - ivl)` for
`ivl = (b - a) mod 12`. -/
def iclassOf (a b : ℤ) : ℤ :=
  min ((b - a) % 12) (12 - (b - a) % 12)

/-! ## Helper lemmas: Python `min` and first-occurrence indexing -/

lemma foldl_min_mem : ∀ (xs : List ℕ) (x : ℕ), xs.foldl min x = x ∨ xs.foldl min x ∈ xs
  | [], x => Or.inl rfl
  | y :: ys, x => by
    simp only [List.foldl_cons]
    rcases foldl_min_mem ys (min x y) with h | h
    · rcases min_choice x y with h' | h'
      · exact Or.inl (h.trans h')
      · exact Or.inr (by rw [h, h']; exact List.mem_cons_self _ _)
    · exact Or.inr (List.mem_cons_of_mem _ h)

lemma foldl_min_le_init : ∀ (xs : List ℕ) (x : ℕ), xs.foldl min x ≤ x
  | [], _ => le_refl _
  | y :: ys, x => by
    simp only [List.foldl_cons]
    exact le_trans (foldl_min_le_init ys (min x y)) (Nat.min_le_left x y)

lemma foldl_min_le_mem : ∀ (xs : List ℕ) (x : ℕ), ∀ y ∈ xs, xs.foldl min x ≤ y := by
  intro xs
  induction xs with
  | nil => intro x y hy; cases hy
  | cons z zs ih =>
    intro x y hy
    simp only [List.foldl_cons]
    rcases List.mem_cons.mp hy with rfl | hy
    · exact le_trans (foldl_min_le_init zs (min x y)) (Nat.min_le_right x y)
    · exact ih (min x z) y hy

/-- Specification of the embedded Python `min`: on a non-empty list it
succeeds and returns a member that is a lower bound. -/
lemma pymin_spec (xs : List ℕ) (hne : xs ≠ []) :
    ∃ m, pymin xs = .ok m ∧ m ∈ xs ∧ ∀ y ∈ xs, m ≤ y := by
  cases xs with
  | nil => exact absurd rfl hne
  | cons x rest =>
    refine ⟨rest.foldl min x, rfl, ?_, ?_⟩
    · rcases foldl_min_mem rest x with h | h
      · rw [h]; exact List.mem_cons_self _ _
      · exact List.mem_cons_of_mem _ h
    · intro y hy
      rcases List.mem_cons.mp hy with rfl | hy
      · exact foldl_min_le_init rest y
      · exact foldl_min_le_mem rest x y hy

lemma pymin_nil : pymin [] = .error "min() arg is an empty sequence" := rfl

/-- Entries strictly before `l.indexOf a` differ from `a`. -/
lemma ne_of_lt_indexOf {α : Type} [DecidableEq α] :
    ∀ (l : List α) (a : α) (j : ℕ), j < l.indexOf a → (h : j < l.length) → l[j] ≠ a := by
  intro l
  induction l with
  | nil => intro a j _ h; simp at h
  | cons x xs ih =>
    intro a j hj hlen
    rw [List.indexOf_cons] at hj
    by_cases hxa : x = a
    · simp [hxa] at hj
    · have hbeq : (x == a) = false := beq_false_of_ne hxa
      rw [hbeq] at hj
      simp only [cond_false] at hj
      cases j with
      | zero => simpa using hxa
      | succ k =>
        have hk : k < xs.length := by simpa using hlen
        have := ih a k (by omega) hk
        simpa using this

/-- The element selected by `xs[(xs.map f).indexOf m]` (as in
`lst[scores.index(min(scores))]`) is a member of `xs` whose `f`-value is `m`,
provided `m` occurs among the scores. -/
lemma select_spec {α : Type} [DecidableEq α] (xs : List α) (f : α → ℕ) (d : α) (m : ℕ)
    (hm : m ∈ xs.map f) :
    (xs.map f).indexOf m < xs.length ∧
      xs.getD ((xs.map f).indexOf m) d ∈ xs ∧
      f (xs.getD ((xs.map f).indexOf m) d) = m := by
  have hidx : (xs.map f).indexOf m < (xs.map f).length := List.indexOf_lt_length.mpr hm
  have hlen : (xs.map f).indexOf m < xs.length := by simpa using hidx
  refine ⟨hlen, ?_, ?_⟩
  · rw [List.getD_eq_getElem xs d hlen]
    exact List.getElem_mem hlen
  · rw [List.getD_eq_getElem xs d hlen]
    have := List.getElem_indexOf hidx
    rwa [List.getElem_map] at this

/-! ## Helper lemmas: sorting and `toFinset` bridges -/

lemma toFinset_map_eq (l : List ℤ) (f : ℤ → ℤ) :
    (l.map f).toFinset = l.toFinset.image f := by
  ext x; simp

lemma toFinset_dedup_eq (l : List ℤ) : l.dedup.toFinset = l.toFinset := by
  ext x; simp

lemma sort_toFinset (F : Finset ℤ) : (Finset.sort (· ≤ ·) F).toFinset = F := by
  ext x; simp [Finset.mem_sort]

/-- Two sorted duplicate-free lists with the same elements are equal. -/
lemma eq_of_sorted_of_toFinset_eq {l l' : List ℤ} (hn : l.Nodup) (hn' : l'.Nodup)
    (hs : l.Sorted (· ≤ ·)) (hs' : l'.Sorted (· ≤ ·)) (h : l.toFinset = l'.toFinset) :
    l = l' :=
  List.eq_of_perm_of_sorted (List.perm_of_nodup_nodup_toFinset_eq hn hn' h) hs hs'

/-- Sorting a duplicate-free list agrees with sorting its `Finset` of
elements. -/
lemma insertionSort_eq_sort {l : List ℤ} (hn : l.Nodup) :
    List.insertionSort (· ≤ ·) l = Finset.sort (· ≤ ·) l.toFinset := by
  apply eq_of_sorted_of_toFinset_eq
  · exact ((List.perm_insertionSort (· ≤ ·) l).nodup_iff).mpr hn
  · exact Finset.sort_nodup (· ≤ ·) l.toFinset
  · exact List.sorted_insertionSort (· ≤ ·) l
  · exact Finset.sort_sorted (· ≤ ·) l.toFinset
  · rw [sort_toFinset]
    ext x
    simp only [List.mem_toFinset]
    exact (List.perm_insertionSort (· ≤ ·) l).mem_iff

/-- Summing over the elements of a duplicate-free list agrees with summing
over its `Finset` of elements. -/
lemma sum_map_eq_finset_sum {l : List ℤ} (hn : l.Nodup) (f : ℤ → ℕ) :
    (l.map f).sum = l.toFinset.sum f :=
  (List.sum_toFinset f hn).symm

/-! ## Helper lemmas: prime-form candidates and bit-score injectivity -/

lemma cand_nodup (S : Finset ℤ) (a : ℤ) : (cand S a).Nodup :=
  Finset.sort_nodup _ _

lemma cand_sorted_le (S : Finset ℤ) (a : ℤ) : (cand S a).Sorted (· ≤ ·) :=
  Finset.sort_sorted _ _

lemma cand_sorted_lt (S : Finset ℤ) (a : ℤ) : (cand S a).Sorted (· < ·) :=
  (cand_sorted_le S a).lt_of_le (cand_nodup S a)

lemma cand_nonneg (S : Finset ℤ) (a : ℤ) : ∀ v ∈ cand S a, 0 ≤ v := by
  intro v hv
  rw [cand, Finset.mem_sort] at hv
  obtain ⟨b, _, rfl⟩ := Finset.mem_image.mp hv
  exact Int.emod_nonneg _ (by norm_num)

lemma map_toNat_inj : ∀ (c c' : List ℤ), (∀ v ∈ c, 0 ≤ v) → (∀ v ∈ c', 0 ≤ v) →
    c.map Int.toNat = c'.map Int.toNat → c = c'
  | [], [], _, _, _ => rfl
  | [], _ :: _, _, _, h => by simp at h
  | _ :: _, [], _, _, h => by simp at h
  | x :: xs, y :: ys, hc, hc', h => by
    simp only [List.map_cons, List.cons.injEq] at h
    have hx := hc x (List.mem_cons_self _ _)
    have hy := hc' y (List.mem_cons_self _ _)
    have hxy : x = y := by omega
    have := map_toNat_inj xs ys (fun v hv => hc v (List.mem_cons_of_mem _ hv))
      (fun v hv => hc' v (List.mem_cons_of_mem _ hv)) h.2
    rw [hxy, this]

/-- Bit-weight scores are injective on strictly sorted lists of non-negative
integers (binary representations are unique). -/
lemma pf_score_inj {c c' : List ℤ} (hs : c.Sorted (· < ·)) (hs' : c'.Sorted (· < ·))
    (hb : ∀ v ∈ c, 0 ≤ v) (hb' : ∀ v ∈ c', 0 ≤ v)
    (h : pf_score c = pf_score c') : c = c' := by
  have key : ∀ (d : List ℤ), d.Sorted (· < ·) → (∀ v ∈ d, 0 ≤ v) →
      pf_score d = ((d.map Int.toNat).map (fun k => 2 ^ k)).sum ∧
      (d.map Int.toNat).Sorted (· < ·) := by
    intro d hd hbd
    constructor
    · rw [pf_score, List.map_map]
      rfl
    · rw [List.Sorted, List.pairwise_map]
      refine hd.imp_of_mem ?_
      intro a b ha hb hab
      have := hbd a ha
      omega
  obtain ⟨he, hsn⟩ := key c hs hb
  obtain ⟨he', hsn'⟩ := key c' hs' hb'
  rw [he, he'] at h
  have h1 := Nat.bitIndices_twoPowsum hsn
  have h2 := Nat.bitIndices_twoPowsum hsn'
  rw [h, h2] at h1
  exact map_toNat_inj c c' hb hb' h1.symm

/-- The candidate computation of the code coincides with the
specification-side candidate for a duplicate-free list of pitch classes. -/
lemma pf_candidate_eq_cand {l : List ℤ} (hn : l.Nodup) (hb : ∀ x ∈ l, 0 ≤ x ∧ x ≤ 11)
    (a : ℤ) : pf_candidate l a = cand l.toFinset a := by
  unfold pf_candidate cand candSet
  have hmn : (l.map (fun b => (b - a) % 12)).Nodup := by
    refine hn.map_on ?_
    intro x hx y hy hxy
    have h1 := hb x hx
    have h2 := hb y hy
    omega
  rw [insertionSort_eq_sort hmn, toFinset_map_eq]

/-- Every prime-form candidate (either side) is a `cand` list. -/
lemma cands_mem_wf {S : Finset ℤ} {c : List ℤ} (h : c ∈ candsT S ∪ candsI S) :
    ∃ T a, c = cand T a := by
  rcases Finset.mem_union.mp h with h | h
  · obtain ⟨a, _, rfl⟩ := Finset.mem_image.mp h
    exact ⟨S, a, rfl⟩
  · obtain ⟨a, _, rfl⟩ := Finset.mem_image.mp h
    exact ⟨pcInv S, a, rfl⟩

/-- The prime-form specification determines the result uniquely: two
candidate lists both satisfying it are equal. -/
lemma PFSpec_unique {S : Finset ℤ} {c c' : List ℤ} (h : PFSpec S c) (h' : PFSpec S c') :
    c = c' := by
  have inj : ∀ d d' : List ℤ, (∃ T a, d = cand T a) → (∃ T a, d' = cand T a) →
      pf_score d = pf_score d' → d = d' := by
    rintro d d' ⟨T, a, rfl⟩ ⟨T', a', rfl⟩ hs
    exact pf_score_inj (cand_sorted_lt T a) (cand_sorted_lt T' a')
      (cand_nonneg T a) (cand_nonneg T' a') hs
  rcases h with ⟨hcT, hmin⟩ | ⟨hcI, hminI, hltT⟩ <;>
    rcases h' with ⟨hcT', hmin'⟩ | ⟨hcI', hminI', hltT'⟩
  · have h1 := hmin c' (Finset.mem_union_left _ hcT')
    have h2 := hmin' c (Finset.mem_union_left _ hcT)
    exact inj c c' (cands_mem_wf (Finset.mem_union_left _ hcT))
      (cands_mem_wf (Finset.mem_union_left _ hcT')) (le_antisymm h1 h2)
  · have h1 := hltT' c hcT
    have h2 := hmin c' (Finset.mem_union_right _ hcI')
    omega
  · have h1 := hltT c' hcT'
    have h2 := hmin' c (Finset.mem_union_right _ hcI)
    omega
  · have h1 := hminI c' hcI'
    have h2 := hminI' c hcI
    exact inj c c' (cands_mem_wf (Finset.mem_union_right _ hcI))
      (cands_mem_wf (Finset.mem_union_right _ hcI')) (le_antisymm h1 h2)

/-! ## Helper lemmas: invariance of the candidate sets under transposition -/

lemma candSet_shift (S : Finset ℤ) (m a : ℤ) :
    candSet (S.image (fun x => (x + m) % 12)) ((a + m) % 12) = candSet S a := by
  unfold candSet
  rw [Finset.image_image]
  apply Finset.image_congr
  intro b _
  simp only [Function.comp_apply]
  omega

lemma cand_shift (S : Finset ℤ) (m a : ℤ) :
    cand (S.image (fun x => (x + m) % 12)) ((a + m) % 12) = cand S a := by
  unfold cand
  rw [candSet_shift]

/-- The transposition-side candidate set is invariant under transposing the
underlying set by any amount mod 12. -/
lemma candsT_shift (S : Finset ℤ) (m : ℤ) :
    candsT (S.image (fun x => (x + m) % 12)) = candsT S := by
  unfold candsT
  rw [Finset.image_image]
  apply Finset.image_congr
  intro a _
  simp only [Function.comp_apply]
  exact cand_shift S m a

/-- Pitch inversion of a transposed set is the transposition (by the negated
amount) of the pitch-inverted set. -/
lemma pcInv_shift (S : Finset ℤ) (m : ℤ) :
    pcInv (S.image (fun x => (x + m) % 12)) = (pcInv S).image (fun x => (x + (-m)) % 12) := by
  unfold pcInv
  rw [Finset.image_image, Finset.image_image]
  apply Finset.image_congr
  intro x _
  simp only [Function.comp_apply]
  omega

/-- The inversion-side candidate set is invariant under transposing the
underlying set by any amount mod 12. -/
lemma candsI_shift (S : Finset ℤ) (m : ℤ) :
    candsI (S.image (fun x => (x + m) % 12)) = candsI S := by
  unfold candsI
  rw [pcInv_shift, candsT_shift]

/-- The prime-form specification is invariant under transposition of the set. -/
lemma PFSpec_shift (S : Finset ℤ) (m : ℤ) (c : List ℤ) :
    PFSpec (S.image (fun x => (x + m) % 12)) c ↔ PFSpec S c := by
  unfold PFSpec
  rw [candsT_shift, candsI_shift]

/-- `prime_form` reduced against known results of the two `min` calls. -/
lemma prime_form_eq_branch (s : PCSet) {mt mi : ℕ}
    (hmt : pymin ((s.pcs.map (pf_candidate s.pcs)).map pf_score) = .ok mt)
    (hmi : pymin ((((s.pcs.map (fun pc => (-pc) % 12)).dedup).map
        (pf_candidate ((s.pcs.map (fun pc => (-pc) % 12)).dedup))).map pf_score) = .ok mi) :
    s.prime_form =
      if mt ≤ mi then
        .ok ((s.pcs.map (pf_candidate s.pcs)).getD
          (((s.pcs.map (pf_candidate s.pcs)).map pf_score).indexOf mt) [])
      else
        .ok ((((s.pcs.map (fun pc => (-pc) % 12)).dedup).map
            (pf_candidate ((s.pcs.map (fun pc => (-pc) % 12)).dedup))).getD
          (((((s.pcs.map (fun pc => (-pc) % 12)).dedup).map
            (pf_candidate ((s.pcs.map (fun pc => (-pc) % 12)).dedup))).map pf_score).indexOf mi) []) := by
  simp only [PCSet.prime_form]
  rw [hmt, hmi]

/-- Characterization of `prime_form` on a non-empty valid set: it succeeds,
and its result satisfies the specification `PFSpec`. -/
lemma prime_form_spec (s : PCSet) (hv : s.valid) (hne : s.pcs ≠ []) :
    ∃ c, s.prime_form = .ok c ∧ PFSpec s.elems c := by
  obtain ⟨hnd, hb⟩ := hv
  have htr : s.pcs.map (pf_candidate s.pcs) = s.pcs.map (cand s.elems) :=
    List.map_congr_left (fun a _ => pf_candidate_eq_cand hnd hb a)
  -- the inversion-side collection
  have hilnd : ((s.pcs.map (fun pc => (-pc) % 12)).dedup).Nodup := List.nodup_dedup _
  have hilb : ∀ x ∈ (s.pcs.map (fun pc => (-pc) % 12)).dedup, 0 ≤ x ∧ x ≤ 11 := by
    intro x hx
    rw [List.mem_dedup] at hx
    obtain ⟨y, _, rfl⟩ := List.mem_map.mp hx
    omega
  have hilfin : ((s.pcs.map (fun pc => (-pc) % 12)).dedup).toFinset = pcInv s.elems := by
    rw [toFinset_dedup_eq, toFinset_map_eq]
    rfl
  have hinv : ((s.pcs.map (fun pc => (-pc) % 12)).dedup).map
      (pf_candidate ((s.pcs.map (fun pc => (-pc) % 12)).dedup)) =
      ((s.pcs.map (fun pc => (-pc) % 12)).dedup).map (cand (pcInv s.elems)) := by
    refine List.map_congr_left (fun a _ => ?_)
    rw [pf_candidate_eq_cand hilnd hilb a, hilfin]
  have hilne : (s.pcs.map (fun pc => (-pc) % 12)).dedup ≠ [] := by
    obtain ⟨x, hx⟩ := List.exists_mem_of_ne_nil s.pcs hne
    exact List.ne_nil_of_mem (List.mem_dedup.mpr (List.mem_map_of_mem _ hx))
  -- both minima exist
  have htne : (s.pcs.map (pf_candidate s.pcs)).map pf_score ≠ [] := by
    simp [hne]
  have hine : (((s.pcs.map (fun pc => (-pc) % 12)).dedup).map
      (pf_candidate ((s.pcs.map (fun pc => (-pc) % 12)).dedup))).map pf_score ≠ [] := by
    simp [hilne]
  obtain ⟨mt, hmtEq, hmtMem, hmtLe⟩ := pymin_spec _ htne
  obtain ⟨mi, hmiEq, hmiMem, hmiLe⟩ := pymin_spec _ hine
  rw [prime_form_eq_branch s hmtEq hmiEq]
  rw [htr] at hmtMem hmtLe ⊢
  rw [hinv] at hmiMem hmiLe ⊢
  -- membership and minimality, transferred to the candidate Finsets
  have memT : ∀ d ∈ candsT s.elems, pf_score d ∈ (s.pcs.map (cand s.elems)).map pf_score := by
    intro d hd
    obtain ⟨a, ha, rfl⟩ := Finset.mem_image.mp hd
    exact List.mem_map_of_mem _ (List.mem_map_of_mem _ (List.mem_toFinset.mp ha))
  have memI : ∀ d ∈ candsI s.elems, pf_score d ∈
      (((s.pcs.map (fun pc => (-pc) % 12)).dedup).map (cand (pcInv s.elems))).map pf_score := by
    intro d hd
    obtain ⟨a, ha, rfl⟩ := Finset.mem_image.mp hd
    refine List.mem_map_of_mem _ (List.mem_map_of_mem _ ?_)
    rw [← hilfin] at ha
    exact List.mem_toFinset.mp ha
  by_cases hcmp : mt ≤ mi
  · rw [if_pos hcmp]
    obtain ⟨hidx, hmem, hval⟩ := select_spec (s.pcs.map (cand s.elems)) pf_score [] mt hmtMem
    refine ⟨_, rfl, Or.inl ⟨?_, ?_⟩⟩
    · obtain ⟨a, ha, hEq⟩ := List.mem_map.mp hmem
      exact Finset.mem_image.mpr ⟨a, List.mem_toFinset.mpr ha, hEq⟩
    · intro d hd
      rw [hval]
      rcases Finset.mem_union.mp hd with hd | hd
      · exact hmtLe _ (memT d hd)
      · exact le_trans hcmp (hmiLe _ (memI d hd))
  · rw [if_neg hcmp]
    obtain ⟨hidx, hmem, hval⟩ := select_spec
      (((s.pcs.map (fun pc => (-pc) % 12)).dedup).map (cand (pcInv s.elems)))
      pf_score [] mi hmiMem
    refine ⟨_, rfl, Or.inr ⟨?_, ?_, ?_⟩⟩
    · obtain ⟨a, ha, hEq⟩ := List.mem_map.mp hmem
      refine Finset.mem_image.mpr ⟨a, ?_, hEq⟩
      rw [← hilfin]
      exact List.mem_toFinset.mpr ha
    · intro d hd
      rw [hval]
      exact hmiLe _ (memI d hd)
    · intro d hd
      rw [hval]
      exact lt_of_lt_of_le (by omega) (hmtLe _ (memT d hd))

/-! ## Helper lemmas: normal order -/

/-- `normal_order` reduced against a known result of the `min` call. -/
lemma normal_order_eq_branch (s : PCSet) {m : ℕ}
    (hm : pymin ((List.insertionSort (· ≤ ·) s.pcs).map
      (pc_score (List.insertionSort (· ≤ ·) s.pcs))) = .ok m) :
    s.normal_order = .ok (rotate_list (List.insertionSort (· ≤ ·) s.pcs)
      (((List.insertionSort (· ≤ ·) s.pcs).map
        (pc_score (List.insertionSort (· ≤ ·) s.pcs))).indexOf m)) := by
  simp only [PCSet.normal_order]
  rw [hm]

/-- Characterization of `normal_order` on a non-empty valid set: it rotates
the ascending element list to start at the first position of minimal
compactness score. -/
lemma normal_order_spec (s : PCSet) (hv : s.valid) (hne : s.pcs ≠ []) :
    ∃ i : ℕ, i < s.sortedElems.length ∧
      s.normal_order = .ok (rotate_list s.sortedElems i) ∧
      (∀ j, j < s.sortedElems.length →
        no_score s.elems (s.sortedElems.getD i 0) ≤
          no_score s.elems (s.sortedElems.getD j 0)) ∧
      (∀ j, j < i →
        no_score s.elems (s.sortedElems.getD j 0) ≠
          no_score s.elems (s.sortedElems.getD i 0)) := by
  obtain ⟨hnd, hb⟩ := hv
  have hsort : List.insertionSort (· ≤ ·) s.pcs = s.sortedElems := insertionSort_eq_sort hnd
  have hsnd : s.sortedElems.Nodup := Finset.sort_nodup _ _
  have hsfin : s.sortedElems.toFinset = s.elems := sort_toFinset _
  have hscore : ∀ a, pc_score s.sortedElems a = no_score s.elems a := by
    intro a
    rw [pc_score, no_score, sum_map_eq_finset_sum hsnd, hsfin]
  have hsne : s.sortedElems ≠ [] := by
    intro hcon
    have hp := List.perm_insertionSort (· ≤ ·) s.pcs
    rw [hsort, hcon] at hp
    exact hne hp.symm.eq_nil
  have hscne : s.sortedElems.map (pc_score s.sortedElems) ≠ [] := by
    simp [hsne]
  obtain ⟨m, hmEq, hmMem, hmLe⟩ := pymin_spec _ hscne
  have hmEq' : pymin ((List.insertionSort (· ≤ ·) s.pcs).map
      (pc_score (List.insertionSort (· ≤ ·) s.pcs))) = .ok m := by
    rw [hsort]; exact hmEq
  have hilen : (s.sortedElems.map (pc_score s.sortedElems)).indexOf m <
      (s.sortedElems.map (pc_score s.sortedElems)).length :=
    List.indexOf_lt_length.mpr hmMem
  have hilen' : (s.sortedElems.map (pc_score s.sortedElems)).indexOf m <
      s.sortedElems.length := by
    simpa using hilen
  have hval : ∀ j : ℕ, j < s.sortedElems.length →
      no_score s.elems (s.sortedElems.getD j 0) =
        (s.sortedElems.map (pc_score s.sortedElems)).getD j 0 := by
    intro j hj
    have hjm : j < (s.sortedElems.map (pc_score s.sortedElems)).length := by simpa using hj
    rw [List.getD_eq_getElem _ _ hj, List.getD_eq_getElem _ _ hjm, ← hscore, List.getElem_map]
  have hidx : (s.sortedElems.map (pc_score s.sortedElems)).getD
      ((s.sortedElems.map (pc_score s.sortedElems)).indexOf m) 0 = m := by
    rw [List.getD_eq_getElem _ _ hilen]
    exact List.getElem_indexOf hilen
  refine ⟨(s.sortedElems.map (pc_score s.sortedElems)).indexOf m, hilen', ?_, ?_, ?_⟩
  · rw [normal_order_eq_branch s hmEq', hsort]
  · intro j hj
    have hjm : j < (s.sortedElems.map (pc_score s.sortedElems)).length := by simpa using hj
    rw [hval _ hilen', hval _ hj, hidx, List.getD_eq_getElem _ _ hjm]
    exact hmLe _ (List.getElem_mem hjm)
  · intro j hj
    have hjl : j < s.sortedElems.length := lt_trans hj hilen'
    have hjm : j < (s.sortedElems.map (pc_score s.sortedElems)).length := by simpa using hjl
    rw [hval _ hjl, hval _ hilen', hidx, List.getD_eq_getElem _ _ hjm]
    exact ne_of_lt_indexOf _ m j hj hjm

/-! ## Claim theorems -/

/-- Claim C1: for every non-empty `PCSet`, `normal_order` returns the
ascending-sorted element list rotated to begin at the element `a` minimizing
`score(a) = Σ over all b in the set of 2 ^ ((b − a) mod 12)`, taking the
first occurrence of the minimum on ties; in particular
`PCSet(10,4,9,6).normal_order == [4,6,9,10]`. -/
theorem normal_order_minimal_rotation :
    (∀ s : PCSet, s.valid → s.pcs ≠ [] →
      ∃ i : ℕ, i < s.sortedElems.length ∧
        s.normal_order = .ok (rotate_list s.sortedElems i) ∧
        (∀ j, j < s.sortedElems.length →
          no_score s.elems (s.sortedElems.getD i 0) ≤
            no_score s.elems (s.sortedElems.getD j 0)) ∧
        (∀ j, j < i →
          no_score s.elems (s.sortedElems.getD j 0) ≠
            no_score s.elems (s.sortedElems.getD i 0))) ∧
    (PCSet.ofList [10, 4, 9, 6] >>= PCSet.normal_order) = .ok [4, 6, 9, 10] :=
  ⟨normal_order_spec, by decide⟩

theorem normal_order_minimal_rotation_witness :
    PCSet.valid ⟨[10, 4, 9, 6]⟩ ∧ PCSet.pcs ⟨[10, 4, 9, 6]⟩ ≠ [] ∧
    (∃ i : ℕ, i < (PCSet.sortedElems ⟨[10, 4, 9, 6]⟩).length ∧
      PCSet.normal_order ⟨[10, 4, 9, 6]⟩ =
        .ok (rotate_list (PCSet.sortedElems ⟨[10, 4, 9, 6]⟩) i) ∧
      (∀ j, j < (PCSet.sortedElems ⟨[10, 4, 9, 6]⟩).length →
        no_score (PCSet.elems ⟨[10, 4, 9, 6]⟩) ((PCSet.sortedElems ⟨[10, 4, 9, 6]⟩).getD i 0) ≤
          no_score (PCSet.elems ⟨[10, 4, 9, 6]⟩) ((PCSet.sortedElems ⟨[10, 4, 9, 6]⟩).getD j 0)) ∧
      (∀ j, j < i →
        no_score (PCSet.elems ⟨[10, 4, 9, 6]⟩) ((PCSet.sortedElems ⟨[10, 4, 9, 6]⟩).getD j 0) ≠
          no_score (PCSet.elems ⟨[10, 4, 9, 6]⟩) ((PCSet.sortedElems ⟨[10, 4, 9, 6]⟩).getD i 0))) :=
  ⟨by decide, by decide,
    normal_order_minimal_rotation.1 ⟨[10, 4, 9, 6]⟩ (by decide) (by decide)⟩

/-- Claim C2: for every non-empty `PCSet`, `prime_form` returns a candidate
sequence `sorted((b - a) mod 12 for all b)` — taken over every starting
element of the set and of its pitch inversion — whose bit-weight score is
globally minimal on its side, choosing the transposition side whenever
`min_t ≤ min_i` (the content of `PFSpec`); in particular
`PCSet(0,1,2).prime_form == [0,1,2]` and `PCSet(0,4,8).prime_form == [0,4,8]`. -/
theorem prime_form_minimal_candidate :
    (∀ s : PCSet, s.valid → s.pcs ≠ [] →
      ∃ c, s.prime_form = .ok c ∧ PFSpec s.elems c) ∧
    (PCSet.ofList [0, 1, 2] >>= PCSet.prime_form) = .ok [0, 1, 2] ∧
    (PCSet.ofList [0, 4, 8] >>= PCSet.prime_form) = .ok [0, 4, 8] :=
  ⟨prime_form_spec, by decide, by decide⟩

theorem prime_form_minimal_candidate_witness :
    PCSet.valid ⟨[10, 4, 9, 6]⟩ ∧ PCSet.pcs ⟨[10, 4, 9, 6]⟩ ≠ [] ∧
    (∃ c, PCSet.prime_form ⟨[10, 4, 9, 6]⟩ = .ok c ∧
      PFSpec (PCSet.elems ⟨[10, 4, 9, 6]⟩) c) :=
  ⟨by decide, by decide,
    prime_form_minimal_candidate.1 ⟨[10, 4, 9, 6]⟩ (by decide) (by decide)⟩

/-- Claim C7: prime form is invariant under transposition: for every `PCSet`
and every `n` in `[0, 11]`, the prime form after `t_n(n)` equals the prime
form before. -/
theorem prime_form_transposition_invariant :
    ∀ (s : PCSet) (n : ℤ), s.valid → 0 ≤ n → n ≤ 11 →
      (s.t_n n >>= PCSet.prime_form) = s.prime_form := by
  intro s n hv h0 h11
  have ht : s.t_n n = .ok ⟨(s.pcs.map (fun pc => (pc + n) % 12)).dedup⟩ := by
    simp [PCSet.t_n, check_n, h0, h11]
  rw [ht]
  show PCSet.prime_form ⟨(s.pcs.map (fun pc => (pc + n) % 12)).dedup⟩ = s.prime_form
  by_cases hemp : s.pcs = []
  · cases s with
    | mk l =>
      simp only at hemp
      subst hemp
      rfl
  · have hv' : PCSet.valid ⟨(s.pcs.map (fun pc => (pc + n) % 12)).dedup⟩ := by
      refine ⟨List.nodup_dedup _, ?_⟩
      intro x hx
      rw [List.mem_dedup] at hx
      obtain ⟨y, _, rfl⟩ := List.mem_map.mp hx
      omega
    have hne' : ((s.pcs.map (fun pc => (pc + n) % 12)).dedup : List ℤ) ≠ [] := by
      obtain ⟨x, hx⟩ := List.exists_mem_of_ne_nil s.pcs hemp
      exact List.ne_nil_of_mem (List.mem_dedup.mpr (List.mem_map_of_mem _ hx))
    obtain ⟨c, hc, hspec⟩ := prime_form_spec s hv hemp
    obtain ⟨c', hc', hspec'⟩ :=
      prime_form_spec ⟨(s.pcs.map (fun pc => (pc + n) % 12)).dedup⟩ hv' hne'
    have hel : PCSet.elems ⟨(s.pcs.map (fun pc => (pc + n) % 12)).dedup⟩ =
        s.elems.image (fun x => (x + n) % 12) := by
      show ((s.pcs.map (fun pc => (pc + n) % 12)).dedup).toFinset = _
      rw [toFinset_dedup_eq, toFinset_map_eq]
      rfl
    rw [hel] at hspec'
    have hS : PFSpec s.elems c' := (PFSpec_shift s.elems n c').mp hspec'
    rw [hc, hc', PFSpec_unique hS hspec]

theorem prime_form_transposition_invariant_witness :
    (PCSet.t_n ⟨[10, 4, 9, 6]⟩ 3 >>= PCSet.prime_form) = PCSet.prime_form ⟨[10, 4, 9, 6]⟩ :=
  prime_form_transposition_invariant ⟨[10, 4, 9, 6]⟩ 3 (by decide) (by decide) (by decide)

/-- Claim C4 counterexample: on the empty set, `normal_order` and
`prime_form` do not return the empty sequence; both raise, because Python's
`min` is applied to an empty score list. -/
theorem empty_set_accessors_counterexample :
    PCSet.normal_order ⟨[]⟩ ≠ .ok [] ∧
    PCSet.prime_form ⟨[]⟩ ≠ .ok [] ∧
    PCSet.normal_order ⟨[]⟩ = .error "min() arg is an empty sequence" ∧
    PCSet.prime_form ⟨[]⟩ = .error "min() arg is an empty sequence" := by
  refine ⟨by decide, by decide, by decide, by decide⟩

/-- Claim C4 as amended: for the empty `PCSet`, `interval_class_vector`
returns six zeros without failing and construction of the empty set
succeeds, but `normal_order` and `prime_form` both raise `ValueError`
(`min()` of an empty sequence). -/
theorem empty_set_accessors_amended :
    PCSet.interval_class_vector ⟨[]⟩ = [0, 0, 0, 0, 0, 0] ∧
    PCSet.normal_order ⟨[]⟩ = .error "min() arg is an empty sequence" ∧
    PCSet.prime_form ⟨[]⟩ = .error "min() arg is an empty sequence" ∧
    PCSet.ofList [] = .ok ⟨[]⟩ := by
  refine ⟨by decide, by decide, by decide, by decide⟩

/-! ## Helper lemmas: validation -/

lemma check_n_ok {m v : ℤ} (h : check_n m = .ok v) : v = m ∧ 0 ≤ m ∧ m ≤ 11 := by
  rw [check_n] at h
  by_cases hm : 0 ≤ m ∧ m ≤ 11
  · rw [if_pos hm] at h
    cases h
    exact ⟨rfl, hm⟩
  · rw [if_neg hm] at h
    cases h

lemma check_n_in_range {m : ℤ} (h0 : 0 ≤ m) (h11 : m ≤ 11) : check_n m = .ok m := by
  rw [check_n, if_pos ⟨h0, h11⟩]

lemma check_n_out_of_range {m : ℤ} (h : ¬(0 ≤ m ∧ m ≤ 11)) :
    check_n m = .error "pitch class, interval, or index number must be 0-11" := by
  rw [check_n, if_neg h]

lemma check_all_error_iff (l : List ℤ) :
    (∃ e, check_all l = .error e) ↔ ∃ x ∈ l, ¬(0 ≤ x ∧ x ≤ 11) := by
  induction l with
  | nil => simp [check_all]
  | cons y ys ih =>
    simp only [check_all]
    by_cases hy : 0 ≤ y ∧ y ≤ 11
    · rw [check_n_in_range hy.1 hy.2]
      cases hcs : check_all ys with
      | ok vs =>
        simp only []
        constructor
        · rintro ⟨e, he⟩
          cases he
        · rintro ⟨x, hx, hxr⟩
          rcases List.mem_cons.mp hx with rfl | hx
          · exact absurd hy hxr
          · obtain ⟨e, he⟩ := ih.mpr ⟨x, hx, hxr⟩
            rw [hcs] at he
            cases he
      | error e =>
        simp only []
        constructor
        · intro _
          obtain ⟨x, hx, hxr⟩ := ih.mp ⟨e, hcs⟩
          exact ⟨x, List.mem_cons_of_mem _ hx, hxr⟩
        · intro _
          exact ⟨e, rfl⟩
    · rw [check_n_out_of_range hy]
      simp only []
      constructor
      · intro _
        exact ⟨y, List.mem_cons_self _ _, hy⟩
      · intro _
        exact ⟨_, rfl⟩

lemma check_all_ok_mem : ∀ {l cl : List ℤ}, check_all l = .ok cl →
    ∀ x ∈ cl, 0 ≤ x ∧ x ≤ 11 := by
  intro l
  induction l with
  | nil =>
    intro cl h x hx
    rw [check_all] at h
    cases h
    cases hx
  | cons y ys ih =>
    intro cl h x hx
    rw [check_all] at h
    cases hcy : check_n y with
    | error e => rw [hcy] at h; cases h
    | ok v =>
      rw [hcy] at h
      cases hcs : check_all ys with
      | error e => rw [hcs] at h; cases h
      | ok vs =>
        rw [hcs] at h
        cases h
        obtain ⟨rfl, hr⟩ := check_n_ok hcy
        rcases List.mem_cons.mp hx with rfl | hx
        · exact hr
        · exact ih hcs x hx

/-- Claim C5: `checkN(n) == n` exactly for `n` in `[0, 11]`; the
constructor, `add_pc`, `t_n`, and `i_n` raise `InvalidPitchClass`
(the `ValueError` of `_check_n`) exactly when the argument is outside
`[0, 11]`.  In this functional embedding an error result carries no new
state, so a failing call leaves the receiver untouched by construction
(validation precedes mutation). -/
theorem validation_raises_iff_out_of_range :
    ∀ (s : PCSet) (n : ℤ) (l : List ℤ),
      ((check_n n = .ok n) ↔ (0 ≤ n ∧ n ≤ 11)) ∧
      ((∃ e, check_n n = .error e) ↔ ¬(0 ≤ n ∧ n ≤ 11)) ∧
      (¬(0 ≤ n ∧ n ≤ 11) →
        s.add_pc n = .error "pitch class, interval, or index number must be 0-11" ∧
        s.t_n n = .error "pitch class, interval, or index number must be 0-11" ∧
        s.i_n n = .error "pitch class, interval, or index number must be 0-11") ∧
      ((0 ≤ n ∧ n ≤ 11) →
        s.add_pc n = .ok ⟨s.pcs.insert n⟩ ∧
        s.t_n n = .ok ⟨(s.pcs.map (fun pc => (pc + n) % 12)).dedup⟩ ∧
        s.i_n n = .ok ⟨(s.pcs.map (fun pc => (n - pc) % 12)).dedup⟩) ∧
      ((∃ e, PCSet.ofList l = .error e) ↔ ∃ x ∈ l, ¬(0 ≤ x ∧ x ≤ 11)) := by
  intro s n l
  refine ⟨?_, ?_, ?_, ?_, ?_⟩
  · constructor
    · intro h
      exact (check_n_ok h).2
    · intro h
      exact check_n_in_range h.1 h.2
  · constructor
    · rintro ⟨e, he⟩ hr
      rw [check_n_in_range hr.1 hr.2] at he
      cases he
    · intro h
      exact ⟨_, check_n_out_of_range h⟩
  · intro h
    rw [PCSet.add_pc, PCSet.t_n, PCSet.i_n, check_n_out_of_range h]
    exact ⟨rfl, rfl, rfl⟩
  · intro h
    rw [PCSet.add_pc, PCSet.t_n, PCSet.i_n, check_n_in_range h.1 h.2]
    exact ⟨rfl, rfl, rfl⟩
  · rw [PCSet.ofList]
    cases hca : check_all l with
    | ok cl =>
      constructor
      · rintro ⟨e, he⟩
        cases he
      · intro h
        obtain ⟨e, he⟩ := (check_all_error_iff l).mpr h
        rw [hca] at he
        cases he
    | error e =>
      constructor
      · intro _
        exact (check_all_error_iff l).mp ⟨_, hca⟩
      · intro _
        exact ⟨_, rfl⟩

theorem validation_raises_iff_out_of_range_witness :
    ¬((0 : ℤ) ≤ 12 ∧ (12 : ℤ) ≤ 11) ∧
    PCSet.add_pc ⟨[0]⟩ 12 = .error "pitch class, interval, or index number must be 0-11" ∧
    PCSet.t_n ⟨[0]⟩ 12 = .error "pitch class, interval, or index number must be 0-11" ∧
    PCSet.i_n ⟨[0]⟩ 12 = .error "pitch class, interval, or index number must be 0-11" :=
  ⟨by decide, (validation_raises_iff_out_of_range ⟨[0]⟩ 12 []).2.2.1 (by decide)⟩

/-- Claim C6: every element stored in a `PCSet` is in `[0, 11]` (and the
backing Python set has no duplicates): the invariant holds after
construction and is preserved by `add_pc`, `remove_pc`, `t_n`, `i_n`,
`union`, `intersection`, and `difference`; an out-of-range argument to
`add_pc` raises rather than being wrapped modulo 12 into the set. -/
theorem stored_elements_in_range :
    (∀ (l : List ℤ) (s : PCSet), PCSet.ofList l = .ok s → s.valid) ∧
    (∀ (s s' : PCSet) (pc : ℤ), s.valid → s.add_pc pc = .ok s' → s'.valid) ∧
    (∀ (s : PCSet) (pc : ℤ), s.valid → (s.remove_pc pc).valid) ∧
    (∀ (s s' : PCSet) (n : ℤ), s.t_n n = .ok s' → s'.valid) ∧
    (∀ (s s' : PCSet) (n : ℤ), s.i_n n = .ok s' → s'.valid) ∧
    (∀ s o : PCSet, s.valid → o.valid →
      (s.union o).valid ∧ (s.intersection o).valid ∧ (s.difference o).valid) ∧
    (∀ (s : PCSet) (pc : ℤ), ¬(0 ≤ pc ∧ pc ≤ 11) →
      s.add_pc pc = .error "pitch class, interval, or index number must be 0-11") := by
  refine ⟨?_, ?_, ?_, ?_, ?_, ?_, ?_⟩
  · intro l s h
    rw [PCSet.ofList] at h
    cases hca : check_all l with
    | ok cl =>
      rw [hca] at h
      cases h
      refine ⟨List.nodup_dedup _, ?_⟩
      intro x hx
      exact check_all_ok_mem hca x (List.mem_dedup.mp hx)
    | error e =>
      rw [hca] at h
      cases h
  · intro s s' pc hv h
    rw [PCSet.add_pc] at h
    cases hc : check_n pc with
    | ok v =>
      rw [hc] at h
      cases h
      obtain ⟨rfl, hr⟩ := check_n_ok hc
      refine ⟨hv.1.insert, ?_⟩
      intro x hx
      rcases List.mem_insert_iff.mp hx with rfl | hx
      · exact hr
      · exact hv.2 x hx
    | error e =>
      rw [hc] at h
      cases h
  · intro s pc hv
    refine ⟨hv.1.erase pc, ?_⟩
    intro x hx
    exact hv.2 x (List.mem_of_mem_erase hx)
  · intro s s' n h
    rw [PCSet.t_n] at h
    cases hc : check_n n with
    | ok v =>
      rw [hc] at h
      cases h
      refine ⟨List.nodup_dedup _, ?_⟩
      intro x hx
      rw [List.mem_dedup] at hx
      obtain ⟨y, _, rfl⟩ := List.mem_map.mp hx
      omega
    | error e =>
      rw [hc] at h
      cases h
  · intro s s' n h
    rw [PCSet.i_n] at h
    cases hc : check_n n with
    | ok v =>
      rw [hc] at h
      cases h
      refine ⟨List.nodup_dedup _, ?_⟩
      intro x hx
      rw [List.mem_dedup] at hx
      obtain ⟨y, _, rfl⟩ := List.mem_map.mp hx
      omega
    | error e =>
      rw [hc] at h
      cases h
  · intro s o hs ho
    refine ⟨⟨List.nodup_dedup _, ?_⟩, ⟨hs.1.filter _, ?_⟩, ⟨hs.1.filter _, ?_⟩⟩
    · intro x hx
      have hx' : x ∈ (s.pcs ++ o.pcs).dedup := hx
      rw [List.mem_dedup, List.mem_append] at hx'
      rcases hx' with hx' | hx'
      · exact hs.2 x hx'
      · exact ho.2 x hx'
    · intro x hx
      exact hs.2 x (List.mem_of_mem_filter hx)
    · intro x hx
      exact hs.2 x (List.mem_of_mem_filter hx)
  · intro s pc h
    rw [PCSet.add_pc, check_n_out_of_range h]

theorem stored_elements_in_range_witness :
    PCSet.valid ⟨[0, 4, 7]⟩ ∧ PCSet.valid ⟨[4, 11]⟩ ∧
    (PCSet.union ⟨[0, 4, 7]⟩ ⟨[4, 11]⟩).valid ∧
    (PCSet.intersection ⟨[0, 4, 7]⟩ ⟨[4, 11]⟩).valid ∧
    (PCSet.difference ⟨[0, 4, 7]⟩ ⟨[4, 11]⟩).valid :=
  ⟨by decide, by decide,
    (stored_elements_in_range.2.2.2.2.2.1 ⟨[0, 4, 7]⟩ ⟨[4, 11]⟩ (by decide) (by decide)).1,
    (stored_elements_in_range.2.2.2.2.2.1 ⟨[0, 4, 7]⟩ ⟨[4, 11]⟩ (by decide) (by decide)).2.1,
    (stored_elements_in_range.2.2.2.2.2.1 ⟨[0, 4, 7]⟩ ⟨[4, 11]⟩ (by decide) (by decide)).2.2⟩

/-- Claim C8: for every valid `PCSet` and every `n` in `[0, 11]`, applying
`t_n(n)` then `t_n((12 - n) mod 12)` restores the original element set, and
applying `i_n(n)` twice restores the original element set. -/
theorem transposition_inversion_roundtrip :
    ∀ (s : PCSet) (n : ℤ), s.valid → 0 ≤ n → n ≤ 11 →
      (∃ s₁ s₂, s.t_n n = .ok s₁ ∧ s₁.t_n ((12 - n) % 12) = .ok s₂ ∧
        s₂.elems = s.elems) ∧
      (∃ u₁ u₂, s.i_n n = .ok u₁ ∧ u₁.i_n n = .ok u₂ ∧ u₂.elems = s.elems) := by
  intro s n hv h0 h11
  have hr2 : 0 ≤ (12 - n) % 12 ∧ (12 - n) % 12 ≤ 11 := by omega
  constructor
  · refine ⟨⟨(s.pcs.map (fun pc => (pc + n) % 12)).dedup⟩,
      ⟨(((s.pcs.map (fun pc => (pc + n) % 12)).dedup).map
        (fun pc => (pc + (12 - n) % 12) % 12)).dedup⟩, ?_, ?_, ?_⟩
    · rw [PCSet.t_n, check_n_in_range h0 h11]
    · rw [PCSet.t_n, check_n_in_range hr2.1 hr2.2]
    · show ((((s.pcs.map (fun pc => (pc + n) % 12)).dedup).map
        (fun pc => (pc + (12 - n) % 12) % 12)).dedup).toFinset = s.pcs.toFinset
      rw [toFinset_dedup_eq, toFinset_map_eq, toFinset_dedup_eq, toFinset_map_eq,
        Finset.image_image]
      have heq : Set.EqOn ((fun pc => (pc + (12 - n) % 12) % 12) ∘ (fun pc => (pc + n) % 12))
          id ↑s.pcs.toFinset := by
        intro x hx
        have hb := hv.2 x (List.mem_toFinset.mp hx)
        simp only [Function.comp_apply, id_eq]
        omega
      rw [Finset.image_congr heq, Finset.image_id]
  · refine ⟨⟨(s.pcs.map (fun pc => (n - pc) % 12)).dedup⟩,
      ⟨(((s.pcs.map (fun pc => (n - pc) % 12)).dedup).map
        (fun pc => (n - pc) % 12)).dedup⟩, ?_, ?_, ?_⟩
    · rw [PCSet.i_n, check_n_in_range h0 h11]
    · rw [PCSet.i_n, check_n_in_range h0 h11]
    · show ((((s.pcs.map (fun pc => (n - pc) % 12)).dedup).map
        (fun pc => (n - pc) % 12)).dedup).toFinset = s.pcs.toFinset
      rw [toFinset_dedup_eq, toFinset_map_eq, toFinset_dedup_eq, toFinset_map_eq,
        Finset.image_image]
      have heq : Set.EqOn ((fun pc => (n - pc) % 12) ∘ (fun pc => (n - pc) % 12))
          id ↑s.pcs.toFinset := by
        intro x hx
        have hb := hv.2 x (List.mem_toFinset.mp hx)
        simp only [Function.comp_apply, id_eq]
        omega
      rw [Finset.image_congr heq, Finset.image_id]

theorem transposition_inversion_roundtrip_witness :
    PCSet.valid ⟨[0, 4, 7]⟩ ∧
    ((∃ s₁ s₂, PCSet.t_n ⟨[0, 4, 7]⟩ 5 = .ok s₁ ∧ s₁.t_n ((12 - 5) % 12) = .ok s₂ ∧
        s₂.elems = PCSet.elems ⟨[0, 4, 7]⟩) ∧
      (∃ u₁ u₂, PCSet.i_n ⟨[0, 4, 7]⟩ 5 = .ok u₁ ∧ u₁.i_n 5 = .ok u₂ ∧
        u₂.elems = PCSet.elems ⟨[0, 4, 7]⟩)) :=
  ⟨by decide, transposition_inversion_roundtrip ⟨[0, 4, 7]⟩ 5 (by decide) (by decide) (by decide)⟩

/-- Claim C9: `union`, `intersection`, and `difference` each return a new
instance holding the combined element set, leaving the (immutable) operands
untouched; the union is a superset of both operands, and
`A.difference(B).intersection(B)` is always empty. -/
theorem set_algebra_properties :
    ∀ A B : PCSet,
      (A.union B).issuperset A = true ∧
      (A.union B).issuperset B = true ∧
      (A.union B).elems = A.elems ∪ B.elems ∧
      (A.intersection B).elems = A.elems ∩ B.elems ∧
      (A.difference B).elems = A.elems \ B.elems ∧
      ((A.difference B).intersection B).elems = ∅ := by
  intro A B
  refine ⟨?_, ?_, ?_, ?_, ?_, ?_⟩
  · rw [PCSet.issuperset, List.all_eq_true]
    intro x hx
    rw [decide_eq_true_iff]
    show x ∈ (A.pcs ++ B.pcs).dedup
    rw [List.mem_dedup, List.mem_append]
    exact Or.inl hx
  · rw [PCSet.issuperset, List.all_eq_true]
    intro x hx
    rw [decide_eq_true_iff]
    show x ∈ (A.pcs ++ B.pcs).dedup
    rw [List.mem_dedup, List.mem_append]
    exact Or.inr hx
  · ext x
    show x ∈ ((A.pcs ++ B.pcs).dedup).toFinset ↔ _
    simp [PCSet.elems]
  · ext x
    show x ∈ (A.pcs.filter (fun x => decide (x ∈ B.pcs))).toFinset ↔ _
    simp [PCSet.elems, List.mem_filter]
  · ext x
    show x ∈ (A.pcs.filter (fun x => decide (x ∉ B.pcs))).toFinset ↔ _
    simp [PCSet.elems, List.mem_filter]
  · ext x
    show x ∈ (((A.pcs.filter (fun x => decide (x ∉ B.pcs))).filter
      (fun x => decide (x ∈ B.pcs))).toFinset) ↔ _
    simp [List.mem_filter]

/-- Claim C10: `remove_pc` of a non-member (range-checked or not) never
fails — it is a total function in this embedding — and leaves the receiver
exactly unchanged. -/
theorem remove_pc_nonmember_noop :
    ∀ (s : PCSet) (pc : ℤ), pc ∉ s.pcs → s.remove_pc pc = s := by
  intro s pc h
  cases s with
  | mk l =>
    show PCSet.mk (l.erase pc) = PCSet.mk l
    rw [List.erase_of_not_mem (by simpa using h)]

theorem remove_pc_nonmember_noop_witness :
    ((12 : ℤ) ∉ PCSet.pcs ⟨[0, 4]⟩ ∧ PCSet.remove_pc ⟨[0, 4]⟩ 12 = ⟨[0, 4]⟩) ∧
    ((-1 : ℤ) ∉ PCSet.pcs ⟨[0, 4]⟩ ∧ PCSet.remove_pc ⟨[0, 4]⟩ (-1) = ⟨[0, 4]⟩) :=
  ⟨⟨by decide, remove_pc_nonmember_noop ⟨[0, 4]⟩ 12 (by decide)⟩,
   ⟨by decide, remove_pc_nonmember_noop ⟨[0, 4]⟩ (-1) (by decide)⟩⟩

/-! ## Helper lemmas: interval-class vector -/

/-- The bucket index (0-based) a pair is counted into by the loop body of
`interval_class_vector`. -/
def icv_bucket (p : ℤ × ℤ) : ℕ :=
  ((if (p.2 - p.1) % 12 > 6 then (-((p.2 - p.1) % 12)) % 12 else (p.2 - p.1) % 12) - 1).toNat

lemma icv_step_eq (r : List ℕ) (p : ℤ × ℤ) : icv_step r p = incr_at r (icv_bucket p) := rfl

lemma iclassOf_symm (a b : ℤ) : iclassOf a b = iclassOf b a := by
  unfold iclassOf
  omega

lemma icv_bucket_lt {a b : ℤ} (ha : 0 ≤ a ∧ a ≤ 11) (hb : 0 ≤ b ∧ b ≤ 11) (hne : a ≠ b) :
    icv_bucket (a, b) < 6 := by
  unfold icv_bucket
  simp only []
  omega

lemma icv_bucket_eq_iff {a b : ℤ} (ha : 0 ≤ a ∧ a ≤ 11) (hb : 0 ≤ b ∧ b ≤ 11) (hne : a ≠ b)
    (i : ℕ) (hi : i < 6) :
    icv_bucket (a, b) = i ↔ iclassOf a b = (i : ℤ) + 1 := by
  unfold icv_bucket iclassOf
  simp only []
  omega

lemma incr_at_length (l : List ℕ) (i : ℕ) : (incr_at l i).length = l.length := by
  simp [incr_at]

lemma incr_at_getD : ∀ (l : List ℕ) (i j : ℕ), i < l.length → j < l.length →
    (incr_at l i).getD j 0 = l.getD j 0 + (if i = j then 1 else 0)
  | [], i, j, hi, _ => by simp at hi
  | x :: xs, 0, 0, _, _ => by simp [incr_at]
  | x :: xs, 0, j + 1, _, hj => by
    simp [incr_at, List.getD_cons_succ]
  | x :: xs, i + 1, 0, _, _ => by
    simp [incr_at, List.getD_cons_succ]
  | x :: xs, i + 1, j + 1, hi, hj => by
    have := incr_at_getD xs i j (by simpa using hi) (by simpa using hj)
    simp only [incr_at, List.getD_cons_succ, List.set_cons_succ] at this ⊢
    rw [if_congr (by omega : (i + 1 = j + 1) ↔ (i = j)) rfl rfl]
    exact this

lemma incr_at_sum : ∀ (l : List ℕ) (i : ℕ), i < l.length →
    (incr_at l i).sum = l.sum + 1
  | [], i, hi => by simp at hi
  | x :: xs, 0, _ => by
    simp [incr_at]
    omega
  | x :: xs, i + 1, hi => by
    have := incr_at_sum xs i (by simpa using hi)
    simp only [incr_at, List.getD_cons_succ, List.set_cons_succ, List.sum_cons] at this ⊢
    omega

lemma foldl_icv_length : ∀ (ps : List (ℤ × ℤ)) (init : List ℕ),
    (ps.foldl icv_step init).length = init.length
  | [], _ => rfl
  | p :: ps, init => by
    rw [List.foldl_cons, foldl_icv_length ps, icv_step_eq, incr_at_length]

lemma foldl_icv_getD : ∀ (ps : List (ℤ × ℤ)) (init : List ℕ),
    (∀ p ∈ ps, icv_bucket p < init.length) → ∀ j, j < init.length →
    (ps.foldl icv_step init).getD j 0 =
      init.getD j 0 + ps.countP (fun p => icv_bucket p == j)
  | [], init, _, j, _ => by simp
  | p :: ps, init, hps, j, hj => by
    rw [List.foldl_cons, icv_step_eq]
    have hlen : (incr_at init (icv_bucket p)).length = init.length := incr_at_length _ _
    have hrec := foldl_icv_getD ps (incr_at init (icv_bucket p))
      (fun q hq => by rw [hlen]; exact hps q (List.mem_cons_of_mem _ hq)) j (by omega)
    rw [hrec, incr_at_getD init _ j (hps p (List.mem_cons_self _ _)) hj, List.countP_cons]
    have : (if icv_bucket p = j then 1 else 0) = (if (icv_bucket p == j) = true then 1 else 0) := by
      by_cases h : icv_bucket p = j <;> simp [h]
    omega

lemma foldl_icv_sum : ∀ (ps : List (ℤ × ℤ)) (init : List ℕ),
    (∀ p ∈ ps, icv_bucket p < init.length) →
    (ps.foldl icv_step init).sum = init.sum + ps.length
  | [], _, _ => by simp
  | p :: ps, init, hps => by
    rw [List.foldl_cons, icv_step_eq]
    have hlen : (incr_at init (icv_bucket p)).length = init.length := incr_at_length _ _
    have hrec := foldl_icv_sum ps (incr_at init (icv_bucket p))
      (fun q hq => by rw [hlen]; exact hps q (List.mem_cons_of_mem _ hq))
    rw [hrec, incr_at_sum init _ (hps p (List.mem_cons_self _ _))]
    simp only [List.length_cons]
    omega

lemma combinations2_mem : ∀ {α : Type} (l : List α) (p : α × α),
    p ∈ combinations2 l → p.1 ∈ l ∧ p.2 ∈ l := by
  intro α l
  induction l with
  | nil => intro p hp; simp [combinations2] at hp
  | cons x xs ih =>
    intro p hp
    rw [combinations2, List.mem_append] at hp
    rcases hp with hp | hp
    · obtain ⟨y, hy, rfl⟩ := List.mem_map.mp hp
      exact ⟨List.mem_cons_self _ _, List.mem_cons_of_mem _ hy⟩
    · obtain ⟨h1, h2⟩ := ih p hp
      exact ⟨List.mem_cons_of_mem _ h1, List.mem_cons_of_mem _ h2⟩

lemma combinations2_ne : ∀ {α : Type} (l : List α), l.Nodup → ∀ p : α × α,
    p ∈ combinations2 l → p.1 ≠ p.2 := by
  intro α l
  induction l with
  | nil => intro _ p hp; simp [combinations2] at hp
  | cons x xs ih =>
    intro hn p hp
    obtain ⟨hx, hxs⟩ := List.nodup_cons.mp hn
    rw [combinations2, List.mem_append] at hp
    rcases hp with hp | hp
    · obtain ⟨y, hy, rfl⟩ := List.mem_map.mp hp
      intro hEq
      have hxy : x = y := hEq
      exact hx (by rw [hxy]; exact hy)
    · exact ih hxs p hp

lemma combinations2_length : ∀ {α : Type} (l : List α),
    (combinations2 l).length = l.length.choose 2 := by
  intro α l
  induction l with
  | nil => rfl
  | cons x xs ih =>
    rw [combinations2, List.length_append, List.length_map, ih, List.length_cons]
    rw [Nat.choose_succ_succ, Nat.choose_one_right]

lemma countP_eq_card_filter_toFinset {l : List ℤ} (hn : l.Nodup) (q : ℤ → Prop)
    [DecidablePred q] :
    l.countP (fun x => decide (q x)) = (l.toFinset.filter q).card := by
  rw [List.countP_eq_length_filter,
    ← List.toFinset_card_of_nodup (hn.filter (fun x => decide (q x))), List.toFinset_filter]
  congr 1
  ext x
  simp

lemma card_filter_product_insert (X : Finset ℤ) (x : ℤ) (hx : x ∉ X) (c : ℤ) :
    ((insert x X ×ˢ insert x X).filter
        (fun p => p.1 < p.2 ∧ iclassOf p.1 p.2 = c)).card =
      (X.filter (fun y => iclassOf x y = c)).card +
      ((X ×ˢ X).filter (fun p => p.1 < p.2 ∧ iclassOf p.1 p.2 = c)).card := by
  have hind : ∀ (S T : Finset ℤ),
      ((S ×ˢ T).filter (fun p => p.1 < p.2 ∧ iclassOf p.1 p.2 = c)).card =
        ∑ a ∈ S, ∑ b ∈ T, (if a < b ∧ iclassOf a b = c then 1 else 0) := by
    intro S T
    rw [Finset.card_filter, Finset.sum_product]
  rw [hind, hind, Finset.sum_insert hx, Finset.sum_insert hx]
  have hswap : ∀ a ∈ X, ∑ b ∈ insert x X, (if a < b ∧ iclassOf a b = c then 1 else 0) =
      (if a < x ∧ iclassOf a x = c then 1 else 0) +
        ∑ b ∈ X, (if a < b ∧ iclassOf a b = c then 1 else 0) := by
    intro a _
    rw [Finset.sum_insert hx]
  rw [Finset.sum_congr rfl hswap, Finset.sum_add_distrib]
  have hxx : (if x < x ∧ iclassOf x x = c then 1 else 0) = 0 := by simp
  rw [hxx]
  have hcomb : ∑ b ∈ X, (if x < b ∧ iclassOf x b = c then 1 else 0) +
      ∑ a ∈ X, (if a < x ∧ iclassOf a x = c then 1 else 0) =
      (X.filter (fun y => iclassOf x y = c)).card := by
    rw [← Finset.sum_add_distrib, Finset.card_filter]
    apply Finset.sum_congr rfl
    intro b hb
    have hbx : b ≠ x := by
      rintro rfl
      exact hx hb
    have hsymm : iclassOf b x = iclassOf x b := iclassOf_symm b x
    have htri : x < b ∨ b < x := by omega
    split_ifs <;> omega
  omega

lemma countP_combinations2_eq_card (c : ℤ) : ∀ (l : List ℤ), l.Nodup →
    ((combinations2 l).countP (fun p => decide (iclassOf p.1 p.2 = c))) =
      ((l.toFinset ×ˢ l.toFinset).filter
        (fun p => p.1 < p.2 ∧ iclassOf p.1 p.2 = c)).card := by
  intro l
  induction l with
  | nil =>
    intro _
    simp [combinations2]
  | cons x xs ih =>
    intro hn
    obtain ⟨hx, hxs⟩ := List.nodup_cons.mp hn
    rw [combinations2, List.countP_append, List.countP_map, ih hxs, List.toFinset_cons]
    rw [card_filter_product_insert xs.toFinset x (by simpa using hx) c]
    congr 1
    have : ((fun p : ℤ × ℤ => decide (iclassOf p.1 p.2 = c)) ∘ fun y => (x, y)) =
        (fun y => decide (iclassOf x y = c)) := rfl
    rw [this, countP_eq_card_filter_toFinset hxs (fun y => iclassOf x y = c)]

/-- Claim C3: `interval_class_vector` counts each unordered pair of distinct
elements exactly once, bucketing the pair's interval class
`min(ivl, 12 - ivl)` for `ivl = (pc_b - pc_a) mod 12` at index `ivl - 1`
(the tritone class 6 landing at index 5); the six counts sum to `C(k, 2)`
for cardinality `k`, and `PCSet(0,6).interval_class_vector == [0,0,0,0,0,1]`. -/
theorem interval_class_vector_pair_counts :
    (∀ s : PCSet, s.valid →
      s.interval_class_vector.length = 6 ∧
      (∀ i : ℕ, i < 6 → s.interval_class_vector.getD i 0 =
        ((s.elems ×ˢ s.elems).filter
          (fun p => p.1 < p.2 ∧ iclassOf p.1 p.2 = (i : ℤ) + 1)).card) ∧
      s.interval_class_vector.sum = (s.elems.card).choose 2) ∧
    (PCSet.ofList [0, 6]).map PCSet.interval_class_vector = .ok [0, 0, 0, 0, 0, 1] := by
  constructor
  · intro s hv
    obtain ⟨hnd, hbound⟩ := hv
    have hbuck : ∀ p ∈ combinations2 s.pcs, icv_bucket p < (List.replicate 6 0).length := by
      intro p hp
      rw [List.length_replicate]
      obtain ⟨h1, h2⟩ := combinations2_mem s.pcs p hp
      exact icv_bucket_lt (hbound _ h1) (hbound _ h2) (combinations2_ne s.pcs hnd p hp)
    refine ⟨?_, ?_, ?_⟩
    · rw [PCSet.interval_class_vector, foldl_icv_length, List.length_replicate]
    · intro i hi
      rw [PCSet.interval_class_vector,
        foldl_icv_getD (combinations2 s.pcs) _ hbuck i (by simpa using hi)]
      have hz : (List.replicate 6 (0 : ℕ)).getD i 0 = 0 := by
        rw [List.getD_eq_getElem _ _ (by simpa using hi), List.getElem_replicate]
      rw [hz, Nat.zero_add]
      have hcong : (combinations2 s.pcs).countP (fun p => icv_bucket p == i) =
          (combinations2 s.pcs).countP
            (fun p => decide (iclassOf p.1 p.2 = (i : ℤ) + 1)) := by
        apply List.countP_congr
        intro p hp
        obtain ⟨a, b⟩ := p
        obtain ⟨h1, h2⟩ := combinations2_mem s.pcs (a, b) hp
        have hne := combinations2_ne s.pcs hnd (a, b) hp
        have hiff := icv_bucket_eq_iff (hbound _ h1) (hbound _ h2) hne i hi
        constructor
        · intro h
          rw [beq_iff_eq] at h
          exact decide_eq_true (hiff.mp h)
        · intro h
          rw [beq_iff_eq]
          exact hiff.mpr (of_decide_eq_true h)
      rw [hcong]
      exact countP_combinations2_eq_card ((i : ℤ) + 1) s.pcs hnd
    · rw [PCSet.interval_class_vector, foldl_icv_sum _ _ hbuck, combinations2_length]
      have hz : (List.replicate 6 (0 : ℕ)).sum = 0 := by simp
      rw [hz, Nat.zero_add]
      congr 1
      exact (List.toFinset_card_of_nodup hnd).symm
  · decide

theorem interval_class_vector_pair_counts_witness :
    PCSet.valid ⟨[0, 6]⟩ ∧
    ((PCSet.interval_class_vector ⟨[0, 6]⟩).length = 6 ∧
      (∀ i : ℕ, i < 6 → (PCSet.interval_class_vector ⟨[0, 6]⟩).getD i 0 =
        ((PCSet.elems ⟨[0, 6]⟩ ×ˢ PCSet.elems ⟨[0, 6]⟩).filter
          (fun p => p.1 < p.2 ∧ iclassOf p.1 p.2 = (i : ℤ) + 1)).card) ∧
      (PCSet.interval_class_vector ⟨[0, 6]⟩).sum = (PCSet.elems ⟨[0, 6]⟩).card.choose 2) :=
  ⟨by decide, interval_class_vector_pair_counts.1 ⟨[0, 6]⟩ (by decide)⟩
